import Mathlib

/-!
Verification of `bibtexparser/middlewares/sorting_blocks.py`.

This file is a shallow embedding of the block-sorting middleware: the key
generator combinators (`_keygen`, `reverse_key`, `_ReversedKey`), the
MRO-based type dispatch (`_mro_get`, `_mro_index`, `type_key`), the junk
grouping (`_BlockJunk`, `_gather_junk`) and the sort orchestrator
(`transform`).  Python exceptions are made explicit with `Except`;
machine-level aliasing (in-place modification versus deep copy) is made
explicit in the result record of `transform`.
-/

namespace SortingBlocks

/-- The Python exception classes that the middleware can raise or catch:
`KeyError` (raised by mapping subscription), `ValueError` (raised by
`list.index` / `tuple.index` on a missing element) and `RuntimeError`
(raised by `_BlockJunk.main_block` on an empty junk). -/
inductive PyExc where
  | keyError
  | valueError
  | runtimeError
deriving DecidableEq, Repr

/-- Modelled from the spec: the block variants of the document model
(`bibtexparser.model` is not among the given sources).  `Entry` carries
`entry_type` and `key` strings; the remaining variants carry their text. -/
inductive Block where
  | string_ (key value : String)
  | preamble (value : String)
  | entry (entry_type key : String)
  | implicitComment (comment : String)
  | explicitComment (comment : String)
deriving DecidableEq, Repr

/-- Modelled from the spec: runtime class tags for the block hierarchy.
`Block` is the abstract base of the five concrete variants, and `object`
is the root of every Python method-resolution order. -/
inductive PyType where
  | object
  | block
  | string_
  | preamble
  | entry
  | implicitComment
  | explicitComment
deriving DecidableEq, Repr

/-- Modelled from the spec: the method resolution order (`cls.mro()`) of
each class tag.  Each concrete variant is a direct subclass of the
abstract `Block`, which is a subclass of `object`. -/
def mro : PyType → List PyType
  | .object => [.object]
  | .block => [.block, .object]
  | .string_ => [.string_, .block, .object]
  | .preamble => [.preamble, .block, .object]
  | .entry => [.entry, .block, .object]
  | .implicitComment => [.implicitComment, .block, .object]
  | .explicitComment => [.explicitComment, .block, .object]

/-- `type(blk)`: the runtime class tag of a block. -/
def typeOf : Block → PyType
  | .string_ _ _ => .string_
  | .preamble _ => .preamble
  | .entry _ _ => .entry
  | .implicitComment _ => .implicitComment
  | .explicitComment _ => .explicitComment

/-- `isinstance(blk, (ExplicitComment, ImplicitComment))`, the comment test
used by `_gather_junk`. -/
def isComment : Block → Bool
  | .implicitComment _ => true
  | .explicitComment _ => true
  | _ => false

/-- `seq.index(x)` for a Python tuple/list: the position of the first
occurrence of `x`, raising `ValueError` when `x` does not occur. -/
def seqIndex (seq : List PyType) (x : PyType) : Except PyExc Nat :=
  match seq with
  | [] => .error .valueError
  | y :: rest => if y = x then .ok 0 else (seqIndex rest x).map (· + 1)

/-- `map[x]` for a Python mapping (modelled as an association list):
the value of the first matching key, raising `KeyError` when absent. -/
def mapGet {V : Type} (m : List (PyType × V)) (x : PyType) : Except PyExc V :=
  match m with
  | [] => .error .keyError
  | (k, v) :: rest => if k = x then .ok v else mapGet rest x

/-- `_mro_index(cls, seq, default)` from the source, with `cls.mro()`
passed as an explicit list: for each class in the MRO it evaluates
`seq.index(key)` inside a `try` block whose `except` clause catches only
`KeyError`; any other exception (in particular the `ValueError` that
`seq.index` actually raises on a miss) propagates.  If the loop finishes,
the default (or `len(seq)`) is returned. -/
def _mro_index (mroList : List PyType) (seq : List PyType)
    (default : Option Nat) : Except PyExc Nat :=
  match mroList with
  | [] => .ok (default.getD seq.length)
  | c :: rest =>
    match seqIndex seq c with
    | .ok i => .ok i
    | .error e =>
      if e = PyExc.keyError then _mro_index rest seq default else .error e

/-- `_mro_get(cls, map, default)` from the source, with `cls.mro()` passed
as an explicit list: for each class in the MRO it evaluates `map[key]`
inside a `try` block catching `KeyError` (which is what a mapping
subscription raises on a miss, so here the fallback genuinely walks the
whole MRO); if no class of the MRO is in the mapping, the default is
returned. -/
def _mro_get {V : Type} (mroList : List PyType) (m : List (PyType × V))
    (default : Option V) : Except PyExc (Option V) :=
  match mroList with
  | [] => .ok default
  | c :: rest =>
    match mapGet m c with
    | .ok v => .ok (some v)
    | .error e =>
      if e = PyExc.keyError then _mro_get rest m default else .error e

/-- The default type order of `type_key` (source line 262). -/
def defaultOrder : List PyType :=
  [.string_, .preamble, .entry, .implicitComment, .explicitComment]

/-- The `sub_keys is None` branch of `type_key`: the generator
`lambda blk: simple_find(type(blk))` where `simple_find` evaluates
`_mro_index(cls, order, fallback_idx)` (the `lru_cache` wrapper is
semantically transparent).  The key of a block is the bare index. -/
def type_key_simple (order : Option (List PyType)) (fallback : Option Nat)
    (blk : Block) : Except PyExc Nat :=
  _mro_index (mro (typeOf blk)) (order.getD defaultOrder) fallback

/-- The value of a `type_key` key when `sub_keys` is supplied: the Python
tuple `(idx,)` when no sub-key generator was found for the block's type,
and `(idx, sub_key(blk))` when one was.  `K` is the (totally ordered)
codomain of the sub-key generators. -/
inductive TypeKeyVal (K : Type) where
  | short (idx : Nat)
  | pair (idx : Nat) (sub : K)
deriving DecidableEq, Repr

/-- Python's `<` on the tuples `(i,)` / `(i, s)` produced by `type_key`:
compare the first components, and on a tie a strictly shorter tuple that
is a prefix of the longer one is smaller. -/
def tkLt {K : Type} [LinearOrder K] : TypeKeyVal K → TypeKeyVal K → Bool
  | .short i, .short j => decide (i < j)
  | .short i, .pair j _ => decide (i < j) || decide (i = j)
  | .pair i _, .short j => decide (i < j)
  | .pair i s, .pair j t => decide (i < j) || (decide (i = j) && decide (s < t))

/-- The `find` closure of `type_key` for the `sub_keys`-supplied case
(source lines 272-282): resolve the order index via `_mro_index`, then the
sub-key description via `_mro_get` (with default `None`).  Sub-key
descriptions are modelled by their elaborated key generators (the source
passes them through `_keygen`).  The `lru_cache` wrapper is semantically
transparent. -/
def type_key_find {K : Type} (order : List PyType)
    (sub_keys : List (PyType × (Block → K))) (fallback : Option Nat)
    (cls : PyType) : Except PyExc (Nat × Option (Block → K)) :=
  match _mro_index (mro cls) order fallback with
  | .error e => .error e
  | .ok idx =>
    match _mro_get (mro cls) sub_keys none with
    | .error e => .error e
    | .ok keyGen => .ok (idx, keyGen)

/-- The key generator closure returned by `type_key` when `sub_keys` is
supplied (source lines 285-290): `(idx,)` when no sub-key generator was
resolved, else `(idx, sub_key(blk))`.  An order of `none` selects the
default order, as in the source. -/
def type_key_gen {K : Type} (order : Option (List PyType))
    (sub_keys : List (PyType × (Block → K))) (fallback : Option Nat)
    (blk : Block) : Except PyExc (TypeKeyVal K) :=
  match type_key_find (order.getD defaultOrder) sub_keys fallback (typeOf blk) with
  | .error e => .error e
  | .ok (idx, none) => .ok (.short idx)
  | .ok (idx, some kg) => .ok (.pair idx (kg blk))

/-- `_ReversedKey` from the source: a wrapper around a base key.  The
source defines `__eq__` as `self.base == other.base`, `__lt__` as
`self.base > other.base`, `__le__` as `self.base >= other.base`, `__gt__`
as `self.base < other.base` and `__ge__` as `self.base <= other.base`.
The `LinearOrder` instance below realises exactly these comparisons (it is
the dual order of the base key, transported along the `base` field); the
theorem for the reversed-key claim verifies each method against the base
order. -/
structure _ReversedKey (K : Type) where
  base : K
deriving DecidableEq, Repr

instance {K : Type} [LinearOrder K] : LinearOrder (_ReversedKey K) :=
  LinearOrder.lift' (fun a => OrderDual.toDual a.base)
    (fun a b h => by
      cases a
      cases b
      simpa using h)

/-- `reverse_key` from the source (specialised to an already elaborated
sub-generator, as produced by `_keygen`; the Key protocol requires the
key codomain to be totally ordered): wrap the sub-generator's key in a
`_ReversedKey`. -/
def reverse_key {α K : Type} (sub : α → K) : α → _ReversedKey K :=
  fun blk => _ReversedKey.mk (sub blk)

/-- A Python sorting key value as produced by `_keygen`: either an atomic
key (a value of the totally ordered type `K` supplied by a caller's key
generator) or a tuple of key values (produced by the lexicographic
branch of `_keygen`). -/
inductive PyKey (K : Type) where
  | base (val : K)
  | tup (elems : List (PyKey K))
deriving Repr

/-- Python `==` between key values: atomic values compare by equality of
the underlying order, tuples compare by length and componentwise `==`,
and values of different shapes are simply unequal (Python `==` does not
raise). -/
def pyEqB {K : Type} [LinearOrder K] : PyKey K → PyKey K → Bool
  | .base a, .base b => decide (a = b)
  | .tup xs, .tup ys => pyEqList xs ys
  | _, _ => false
where
  pyEqList : List (PyKey K) → List (PyKey K) → Bool
    | [], [] => true
    | x :: xs, y :: ys => pyEqB x y && pyEqList xs ys
    | _, _ => false

mutual

/-- Python three-way rich comparison of key values.  Atomic values compare
in the base order; tuples compare as CPython compares tuples (see
`tupleCmpList`); comparing an atomic value against a tuple raises
`TypeError`, modelled as `none`. -/
def pyCmp {K : Type} [LinearOrder K] : PyKey K → PyKey K → Option Ordering
  | .base a, .base b => some (compare a b)
  | .tup xs, .tup ys => tupleCmpList xs ys
  | _, _ => none

/-- CPython's tuple comparison: scan for the first componentwise `==`
failure and decide there with the component comparison; if one tuple is
exhausted first, the shorter tuple is smaller. -/
def tupleCmpList {K : Type} [LinearOrder K] :
    List (PyKey K) → List (PyKey K) → Option Ordering
  | [], [] => some .eq
  | [], _ :: _ => some .lt
  | _ :: _, [] => some .gt
  | x :: xs, y :: ys =>
    if pyEqB x y then tupleCmpList xs ys else pyCmp x y

end

/-- A key generator description (`_KeyGenDesc` in the source): either a
caller-supplied key generator (whose keys, per the Key protocol, live in
a totally ordered type `K`), or an ordered sequence of sub-descriptions. -/
inductive KeyGenDesc (α K : Type) where
  | fn (f : α → K)
  | seq (subs : List (KeyGenDesc α K))

mutual

/-- `_keygen` from the source: a sequence description becomes the
generator returning the tuple of the sub-generators' keys; a callable
description is used directly (its atomic keys are injected into
`PyKey`). -/
def _keygen {α K : Type} : KeyGenDesc α K → α → PyKey K
  | .fn f, blk => .base (f blk)
  | .seq ds, blk => .tup (keygenList ds blk)

/-- The tuple of keys of a list of sub-descriptions, in order (the inner
generator expression of `_keygen`). -/
def keygenList {α K : Type} : List (KeyGenDesc α K) → α → List (PyKey K)
  | [], _ => []
  | d :: ds, blk => _keygen d blk :: keygenList ds blk

end

/-- `_BlockJunk` from the source: zero or more comments together with a
block, stored in parse order. -/
structure _BlockJunk where
  blocks : List Block
deriving DecidableEq, Repr

/-- `_BlockJunk.main_block` from the source: `self.blocks[-1]`, with the
`IndexError` of an empty list caught and re-raised as a `RuntimeError`
("Block junk must contain at least one block."). -/
def _BlockJunk.main_block (j : _BlockJunk) : Except PyExc Block :=
  match j.blocks.getLast? with
  | some b => .ok b
  | none => .error .runtimeError

/-- Python's slice `blocks[a:b]` (for the non-negative clamped indices
used by `_gather_junk`). -/
def pySlice (blocks : List Block) (a b : Nat) : List Block :=
  (blocks.take b).drop a

/-- The indices yielded by the inner generator of `_gather_junk`:
`idx for idx, blk in enumerate(blocks) if not isinstance(blk,
(ExplicitComment, ImplicitComment))`, with `n` the enumeration offset. -/
def nonCommentIdxsFrom (n : Nat) : List Block → List Nat
  | [] => []
  | b :: bs =>
    if isComment b then nonCommentIdxsFrom (n + 1) bs
    else n :: nonCommentIdxsFrom (n + 1) bs

/-- The list comprehension of `_gather_junk`: for each non-comment index
`slc_last` it emits `_BlockJunk(blocks=blocks[slc_first:slc_last + 1])`
and then updates the cursor `slc_first := slc_last + 1` (the walrus
assignment inside the slice bound; the slice start is evaluated before
the assignment). -/
def sliceJunks (blocks : List Block) : Nat → List Nat → List _BlockJunk
  | _, [] => []
  | slcFirst, i :: rest =>
    _BlockJunk.mk (pySlice blocks slcFirst (i + 1)) :: sliceJunks blocks (i + 1) rest

/-- The final value of the cursor `slc_first` after the comprehension of
`_gather_junk` has run. -/
def finalFirst : Nat → List Nat → Nat
  | slcFirst, [] => slcFirst
  | _, i :: rest => finalFirst (i + 1) rest

/-- `SortBlocksMiddleware._gather_junk` from the source: slice between
non-comment blocks, then append the trailing all-comment junk when the
cursor has not consumed the whole list. -/
def _gather_junk (blocks : List Block) : List _BlockJunk :=
  let idxs := nonCommentIdxsFrom 0 blocks
  let junks := sliceJunks blocks 0 idxs
  let f := finalFirst 0 idxs
  if f < blocks.length then junks ++ [_BlockJunk.mk (blocks.drop f)] else junks

/-- Python's `list.sort(key=k, reverse=rev)`: CPython extracts the key of
every element once, sorts stably in ascending key order, and implements
`reverse=True` by reversing the list before and after the (stable,
ascending) sort.  The stable ascending sort is modelled by insertion
sort, which has the same specification (stable, sorted by `k · ≤ k ·`)
as CPython's timsort. -/
def pySortBy {α K : Type} [LinearOrder K] (k : α → K) (rev : Bool)
    (l : List α) : List α :=
  if rev then (List.insertionSort (fun a b => k a ≤ k b) l.reverse).reverse
  else List.insertionSort (fun a b => k a ≤ k b) l

/-- The configuration of a `SortBlocksMiddleware`: the elaborated key
generator `self._key` (a pure function into a totally ordered key type,
per the Key protocol), `self._reverse`, `self._junk`
(`preserve_comments_on_top`) and `self.allow_inplace_modification`. -/
structure SortCfg (K : Type) where
  key : Block → K
  reverse : Bool
  junk : Bool
  allow_inplace_modification : Bool

/-- The `Library` container: it owns an ordered block sequence. -/
structure Library where
  blocks : List Block
deriving DecidableEq, Repr

/-- `deepcopy(blocks)`: a copy with equal value.  As Lean values, the copy
is the same list; the point of the copy — that mutating it does not
affect the caller's original — is captured by `transform` below, which
writes the sorted order back into the input library exactly when no copy
was taken. -/
def deepcopy (blocks : List Block) : List Block := blocks

/-- `self._junk_key(self._key)` applied to every junk, as Python's
`list.sort(key=...)` applies the key function once per element before
sorting: each junk is paired with `key(junk.main_block)`.  An exception
from `main_block` aborts the sort. -/
def keyedJunks {K : Type} (k : Block → K) :
    List _BlockJunk → Except PyExc (List (K × _BlockJunk))
  | [] => .ok []
  | j :: js =>
    match j.main_block with
    | .error e => .error e
    | .ok mb =>
      match keyedJunks k js with
      | .error e => .error e
      | .ok rest => .ok ((k mb, j) :: rest)

/-- The sorting step of `transform` (source lines 399-405), producing the
new content of `blocks`: with `self._junk` set, gather junks, sort them
by the junk key and flatten; otherwise sort the block list directly. -/
def sortedBlocksResult {K : Type} [LinearOrder K] (cfg : SortCfg K)
    (blocks : List Block) : Except PyExc (List Block) :=
  if cfg.junk then
    match keyedJunks cfg.key (_gather_junk blocks) with
    | .error e => .error e
    | .ok keyed =>
      .ok ((((pySortBy Prod.fst cfg.reverse keyed).map Prod.snd).map
        _BlockJunk.blocks).flatten)
  else .ok (pySortBy cfg.key cfg.reverse blocks)

/-- The observable outcome of `SortBlocksMiddleware.transform`:
`inputAfter` is the state of the caller's library after the call (its
block list is mutated exactly when the sort operated on it in place),
`returnedIsInput` records whether the returned object is the very input
library (`return library`) or a newly constructed one
(`return Library(blocks)`), and `returned` is the returned library. -/
structure TransformResult where
  inputAfter : Library
  returnedIsInput : Bool
  returned : Library
deriving DecidableEq, Repr

/-- `SortBlocksMiddleware.transform` from the source: take the library's
block list, deep-copy it when in-place modification is prohibited, sort
(always writing the result to the working list), and return the input
library itself (whose list was mutated) when in place, else a new
library around the copied, sorted list. -/
def transform {K : Type} [LinearOrder K] (cfg : SortCfg K)
    (library : Library) : Except PyExc TransformResult :=
  let inplace := cfg.allow_inplace_modification
  let working := if inplace then library.blocks else deepcopy library.blocks
  match sortedBlocksResult cfg working with
  | .error e => .error e
  | .ok sorted =>
    .ok { inputAfter := if inplace then Library.mk sorted else library
          returnedIsInput := inplace
          returned := Library.mk sorted }

/-! ### Junk grouping: reference scan and equivalence -/

/-- Reference form of the junk grouping: an explicit left-to-right scan
carrying the pending run of comments.  Used only inside proofs, to reason
about the slicing comprehension of `_gather_junk` by structural
induction. -/
def gatherScan (acc : List Block) : List Block → List (List Block)
  | [] => if acc = [] then [] else [acc]
  | b :: bs =>
    if isComment b then gatherScan (acc ++ [b]) bs
    else (acc ++ [b]) :: gatherScan [] bs

/-- A junk of the claimed shape: zero or more comments followed by exactly
one non-comment block. -/
def commentsThenMain (J : List Block) : Prop :=
  ∃ cs b, J = cs ++ [b] ∧ (∀ c ∈ cs, isComment c = true) ∧ isComment b = false

theorem sliceJunks_spec (full : List Block) :
    ∀ (bs acc : List Block) (f : Nat), full.drop f = acc ++ bs →
      (sliceJunks full f (nonCommentIdxsFrom (f + acc.length) bs)).map
          _BlockJunk.blocks
        ++ (if finalFirst f (nonCommentIdxsFrom (f + acc.length) bs) < full.length
            then [full.drop (finalFirst f (nonCommentIdxsFrom (f + acc.length) bs))]
            else [])
      = gatherScan acc bs := by
  intro bs
  induction bs with
  | nil =>
    intro acc f hdrop
    simp only [nonCommentIdxsFrom, sliceJunks, finalFirst, List.map_nil,
      List.nil_append, gatherScan]
    by_cases hacc : acc = []
    · subst hacc
      simp only [List.append_nil] at hdrop
      have : ¬ f < full.length := by
        by_contra h
        have := List.drop_eq_nil_iff.mp hdrop
        omega
      simp [this]
    · have hlt : f < full.length := by
        by_contra h
        have hnil : full.drop f = [] := List.drop_eq_nil_of_le (by omega)
        rw [hnil] at hdrop
        exact hacc (by simpa using hdrop.symm)
      simp [hlt, hdrop, hacc]
  | cons b bs ih =>
    intro acc f hdrop
    by_cases hb : isComment b
    · have hstep : full.drop f = (acc ++ [b]) ++ bs := by
        rw [hdrop]; simp
      have := ih (acc ++ [b]) f hstep
      simp only [List.length_append, List.length_cons, List.length_nil] at this
      simpa [nonCommentIdxsFrom, hb, gatherScan, Nat.add_assoc] using this
    · have hslice : pySlice full f (f + acc.length + 1) = acc ++ [b] := by
        unfold pySlice
        rw [List.drop_take, hdrop]
        have h1 : f + acc.length + 1 - f = acc.length + 1 := by omega
        rw [h1, List.take_append_eq_append_take]
        have h2 : acc.length + 1 - acc.length = 1 := by omega
        simp [h2, List.take_of_length_le]
      have hrest : full.drop (f + acc.length + 1) = bs := by
        have : full.drop (f + acc.length + 1) = (full.drop f).drop (acc.length + 1) := by
          rw [List.drop_drop]; ring_nf
        rw [this, hdrop]
        have : acc.length + 1 = acc.length + 1 := rfl
        rw [show acc ++ b :: bs = (acc ++ [b]) ++ bs by simp]
        rw [show acc.length + 1 = (acc ++ [b]).length + 0 by simp]
        rw [List.drop_append]
        simp
      have := ih [] (f + acc.length + 1) (by simpa using hrest)
      simp only [List.length_nil, Nat.add_zero] at this
      simp only [nonCommentIdxsFrom, hb, Bool.false_eq_true, if_false, gatherScan,
        sliceJunks, finalFirst, List.map_cons, List.cons_append, List.cons.injEq]
      constructor
      · exact hslice
      · exact this

theorem gather_junk_eq_scan (blocks : List Block) :
    (_gather_junk blocks).map _BlockJunk.blocks = gatherScan [] blocks := by
  have h := sliceJunks_spec blocks blocks [] 0 (by simp)
  simp only [List.length_nil, Nat.add_zero, List.nil_append] at h
  unfold _gather_junk
  by_cases hc : finalFirst 0 (nonCommentIdxsFrom 0 blocks) < blocks.length
  · simp only [hc, if_true] at h ⊢
    simpa using h
  · simp only [hc, if_false] at h ⊢
    simpa using h

theorem gatherScan_flatten : ∀ (bs acc : List Block),
    (gatherScan acc bs).flatten = acc ++ bs := by
  intro bs
  induction bs with
  | nil =>
    intro acc
    by_cases hacc : acc = [] <;> simp [gatherScan, hacc]
  | cons b bs ih =>
    intro acc
    by_cases hb : isComment b
    · rw [gatherScan, if_pos hb, ih (acc ++ [b])]
      simp
    · rw [gatherScan, if_neg hb]
      simp [ih []]

theorem gatherScan_ne_nil : ∀ (bs acc : List Block) (J : List Block),
    J ∈ gatherScan acc bs → J ≠ [] := by
  intro bs
  induction bs with
  | nil =>
    intro acc J hJ
    by_cases hacc : acc = [] <;> simp [gatherScan, hacc] at hJ
    simp [hJ, hacc]
  | cons b bs ih =>
    intro acc J hJ
    by_cases hb : isComment b
    · rw [gatherScan, if_pos hb] at hJ
      exact ih (acc ++ [b]) J hJ
    · rw [gatherScan, if_neg hb] at hJ
      rcases List.mem_cons.mp hJ with h | h
      · subst h; simp
      · exact ih [] J h

theorem gatherScan_shape : ∀ (bs acc : List Block),
    (∀ c ∈ acc, isComment c = true) →
    ∀ (l1 : List (List Block)) (J : List Block) (l2 : List (List Block)),
      gatherScan acc bs = l1 ++ J :: l2 → l2 ≠ [] → commentsThenMain J := by
  intro bs
  induction bs with
  | nil =>
    intro acc _ l1 J l2 heq hl2
    have hlen : (gatherScan acc []).length = (l1 ++ J :: l2).length :=
      congrArg List.length heq
    by_cases hacc : acc = [] <;>
      simp [gatherScan, hacc, List.length_append] at hlen <;>
      cases l2 <;> simp_all <;> omega
  | cons b bs ih =>
    intro acc hacc l1 J l2 heq hl2
    by_cases hb : isComment b
    · rw [show gatherScan acc (b :: bs)
          = if isComment b then gatherScan (acc ++ [b]) bs
            else (acc ++ [b]) :: gatherScan [] bs from rfl, if_pos hb] at heq
      refine ih (acc ++ [b]) ?_ l1 J l2 heq hl2
      intro c hc
      rcases List.mem_append.mp hc with h' | h'
      · exact hacc c h'
      · simp at h'; subst h'; exact hb
    · rw [show gatherScan acc (b :: bs)
          = if isComment b then gatherScan (acc ++ [b]) bs
            else (acc ++ [b]) :: gatherScan [] bs from rfl, if_neg hb] at heq
      cases l1 with
      | nil =>
        simp only [List.nil_append, List.cons.injEq] at heq
        exact heq.1 ▸ ⟨acc, b, rfl, hacc, by simpa using hb⟩
      | cons x l1 =>
        simp only [List.cons_append, List.cons.injEq] at heq
        exact ih [] (by simp) l1 J l2 heq.2 hl2

/-- Every junk produced by `_gather_junk` has a nonempty block list
(helper shared by several results). -/
theorem gather_junk_blocks_ne_nil (blocks : List Block) (j : _BlockJunk)
    (h : j ∈ _gather_junk blocks) : j.blocks ≠ [] :=
  gatherScan_ne_nil blocks [] j.blocks
    (gather_junk_eq_scan blocks ▸ List.mem_map_of_mem _BlockJunk.blocks h)

/-- C4: the junks of `_gather_junk` partition the input exactly: their
blocks concatenate back to the input, the empty input yields no junks,
and every non-final junk is a run of comments closed by one non-comment
block. -/
theorem gather_junk_partition (blocks : List Block) :
    ((_gather_junk blocks).map _BlockJunk.blocks).flatten = blocks
    ∧ _gather_junk [] = []
    ∧ ∀ (l1 : List _BlockJunk) (j : _BlockJunk) (l2 : List _BlockJunk),
        _gather_junk blocks = l1 ++ j :: l2 → l2 ≠ [] →
          commentsThenMain j.blocks := by
  refine ⟨?_, rfl, ?_⟩
  · rw [gather_junk_eq_scan, gatherScan_flatten]
    simp
  · intro l1 j l2 heq hl2
    have hmap : gatherScan [] blocks
        = l1.map _BlockJunk.blocks ++ j.blocks :: l2.map _BlockJunk.blocks := by
      rw [← gather_junk_eq_scan, heq]
      simp
    exact gatherScan_shape blocks [] (by simp) _ _ _ hmap (by simpa using hl2)

/-- Witness for C4 at a concrete input. -/
theorem gather_junk_partition_witness :
    ((_gather_junk [Block.implicitComment "c", Block.entry "a" "k",
        Block.implicitComment "d"]).map _BlockJunk.blocks).flatten
      = [Block.implicitComment "c", Block.entry "a" "k",
        Block.implicitComment "d"]
    ∧ commentsThenMain
        (_BlockJunk.mk [Block.implicitComment "c", Block.entry "a" "k"]).blocks := by
  refine ⟨(gather_junk_partition _).1, ?_⟩
  exact (gather_junk_partition [Block.implicitComment "c", Block.entry "a" "k",
      Block.implicitComment "d"]).2.2
    [] (_BlockJunk.mk [Block.implicitComment "c", Block.entry "a" "k"])
    [_BlockJunk.mk [Block.implicitComment "d"]] (by decide) (by decide)

/-- C9: every junk produced by `_gather_junk` contains at least one block,
so `main_block` never takes its error branch on such junks. -/
theorem gather_junk_main_block_total (blocks : List Block) (j : _BlockJunk)
    (h : j ∈ _gather_junk blocks) :
    j.blocks ≠ [] ∧ ∃ b, j.main_block = Except.ok b := by
  have hne := gather_junk_blocks_ne_nil blocks j h
  refine ⟨hne, ?_⟩
  unfold _BlockJunk.main_block
  match hx : j.blocks.getLast? with
  | some b => exact ⟨b, rfl⟩
  | none => exact absurd (List.getLast?_eq_none_iff.mp hx) hne

/-- Witness for C9 at a concrete input. -/
theorem gather_junk_main_block_total_witness :
    (_BlockJunk.mk [Block.entry "a" "k"]).blocks ≠ []
    ∧ ∃ b, (_BlockJunk.mk [Block.entry "a" "k"]).main_block = Except.ok b :=
  gather_junk_main_block_total [Block.entry "a" "k"] _ (by decide)

/-! ### Totality of `main_block` on gathered junks, and `transform` -/

theorem main_block_ok (j : _BlockJunk) (h : j.blocks ≠ []) :
    ∃ b, j.main_block = Except.ok b := by
  unfold _BlockJunk.main_block
  match hx : j.blocks.getLast? with
  | some b => exact ⟨b, rfl⟩
  | none => exact absurd (List.getLast?_eq_none_iff.mp hx) h

theorem keyedJunks_ok {K : Type} (k : Block → K) :
    ∀ js : List _BlockJunk, (∀ j ∈ js, j.blocks ≠ []) →
      ∃ ys, keyedJunks k js = Except.ok ys := by
  intro js
  induction js with
  | nil => exact fun _ => ⟨[], rfl⟩
  | cons j js ih =>
    intro h
    obtain ⟨b, hb⟩ := main_block_ok j (h j (List.mem_cons_self j js))
    obtain ⟨ys, hys⟩ := ih (fun x hx => h x (List.mem_cons_of_mem j hx))
    exact ⟨(k b, j) :: ys, by simp [keyedJunks, hb, hys]⟩

theorem sortedBlocksResult_ok {K : Type} [LinearOrder K] (cfg : SortCfg K)
    (blocks : List Block) : ∃ s, sortedBlocksResult cfg blocks = Except.ok s := by
  unfold sortedBlocksResult
  split
  · obtain ⟨ys, hys⟩ := keyedJunks_ok cfg.key (_gather_junk blocks)
      (fun j hj => gather_junk_blocks_ne_nil blocks j hj)
    rw [hys]
    exact ⟨_, rfl⟩
  · exact ⟨_, rfl⟩

theorem transform_eq {K : Type} [LinearOrder K] (cfg : SortCfg K)
    (lib : Library) {s : List Block}
    (hs : sortedBlocksResult cfg lib.blocks = Except.ok s) :
    transform cfg lib = Except.ok
      (TransformResult.mk
        (if cfg.allow_inplace_modification then Library.mk s else lib)
        cfg.allow_inplace_modification (Library.mk s)) := by
  simp only [transform, deepcopy, ite_self, hs]

/-! ### C1: main block of an all-comment junk, trailing comments -/

/-- C1 counterexample: an all-comment junk's `main_block` returns its last
comment instead of raising, and a comment-preserving sort of an input
ending in a trailing comment completes normally, with the trailing
comment acting as its junk's sort key (here it sorts the comment junk to
the front). -/
theorem main_block_comment_junk_counterexample :
    _BlockJunk.main_block (_BlockJunk.mk [Block.implicitComment "c"])
      = Except.ok (Block.implicitComment "c")
    ∧ transform
        (SortCfg.mk (fun b => if isComment b then (0 : Nat) else 1) false true true)
        (Library.mk [Block.entry "a" "k", Block.implicitComment "z"])
      = Except.ok (TransformResult.mk
          (Library.mk [Block.implicitComment "z", Block.entry "a" "k"]) true
          (Library.mk [Block.implicitComment "z", Block.entry "a" "k"])) := by
  exact ⟨rfl, rfl⟩

/-- C1 amended: `main_block` raises only on an *empty* junk; on any
nonempty junk — in particular an all-comment one — it returns the last
block, and `transform` never raises, whatever the input. -/
theorem main_block_last_and_sort_proceeds :
    (∀ (j : _BlockJunk) (h : j.blocks ≠ []),
        j.main_block = Except.ok (j.blocks.getLast h))
    ∧ _BlockJunk.main_block (_BlockJunk.mk []) = Except.error PyExc.runtimeError
    ∧ ∀ (K : Type) [LinearOrder K] (cfg : SortCfg K) (lib : Library),
        ∃ r, transform cfg lib = Except.ok r := by
  refine ⟨?_, rfl, ?_⟩
  · intro j h
    unfold _BlockJunk.main_block
    rw [List.getLast?_eq_getLast j.blocks h]
  · intro K _ cfg lib
    obtain ⟨s, hs⟩ := sortedBlocksResult_ok cfg lib.blocks
    exact ⟨_, transform_eq cfg lib hs⟩

/-- Witness for the amended C1 statement. -/
theorem main_block_last_and_sort_proceeds_witness :
    _BlockJunk.main_block
        (_BlockJunk.mk [Block.implicitComment "c", Block.implicitComment "d"])
      = Except.ok (Block.implicitComment "d")
    ∧ ∃ r, transform (SortCfg.mk (fun _ => (0 : Nat)) false true false)
        (Library.mk [Block.implicitComment "c"]) = Except.ok r := by
  constructor
  · have h := main_block_last_and_sort_proceeds.1
      (_BlockJunk.mk [Block.implicitComment "c", Block.implicitComment "d"])
      (by decide)
    simpa using h
  · exact main_block_last_and_sort_proceeds.2.2 Nat
      (SortCfg.mk (fun _ => (0 : Nat)) false true false)
      (Library.mk [Block.implicitComment "c"])

/-! ### C2 and C3: the `except KeyError` slip in `_mro_index` -/

/-- C2: `tuple.index` raises `ValueError` on a miss, but `_mro_index`
catches only `KeyError`, so for a type whose exact class is not in the
order — here `Entry` against the order `(Block,)`, whose ancestor `Block`
*is* in the order — the lookup raises instead of returning the ancestor's
position `0`. -/
theorem mro_index_subtype_raises :
    _mro_index (mro PyType.entry) [PyType.block] none
      = Except.error PyExc.valueError
    ∧ PyType.block ∈ mro PyType.entry
    ∧ type_key_simple (some [PyType.block]) none (Block.entry "a" "k")
      = Except.error PyExc.valueError := by
  exact ⟨rfl, by decide, rfl⟩

/-- C3: for a type none of whose ancestors is in the order — here
`String` against the order `(Preamble,)` — `_mro_index` raises
`ValueError` at the first miss instead of returning the fallback rank
`len(order) = 1`. -/
theorem mro_index_fallback_raises :
    _mro_index (mro PyType.string_) [PyType.preamble] none
      = Except.error PyExc.valueError
    ∧ type_key_simple (some [PyType.preamble]) none (Block.string_ "k" "v")
      = Except.error PyExc.valueError := by
  exact ⟨rfl, rfl⟩

/-! ### Stability of the sort -/

theorem filter_insertionSort_stable {α : Type} (r : α → α → Prop)
    [DecidableRel r] (p : α → Bool) (l : List α)
    (hp : ∀ a b, p a = true → p b = true → r a b) :
    (List.insertionSort r l).filter p = l.filter p := by
  have hpair : (l.filter p).Pairwise r :=
    List.pairwise_of_forall_mem_list (fun a ha b hb =>
      hp a b (List.of_mem_filter ha) (List.of_mem_filter hb))
  have hsub : List.Sublist (l.filter p) (List.insertionSort r l) :=
    List.sublist_insertionSort hpair (List.filter_sublist l)
  have h1 : (l.filter p).filter p = l.filter p := by
    simp [List.filter_filter]
  have hsub2 : List.Sublist (l.filter p) ((List.insertionSort r l).filter p) := by
    have h2 := hsub.filter p
    rwa [h1] at h2
  have hperm : List.Perm ((List.insertionSort r l).filter p) (l.filter p) :=
    (List.perm_insertionSort r l).filter p
  exact (hsub2.eq_of_length hperm.length_eq.symm).symm

theorem pySortBy_stable {α K : Type} [LinearOrder K] (k : α → K) (rev : Bool)
    (l : List α) (v : K) :
    (pySortBy k rev l).filter (fun x => decide (k x = v))
      = l.filter (fun x => decide (k x = v)) := by
  have hp : ∀ a b, decide (k a = v) = true → decide (k b = v) = true →
      (fun a b => k a ≤ k b) a b := by
    intro a b ha hb
    simp only [decide_eq_true_eq] at ha hb
    exact le_of_eq (ha.trans hb.symm)
  unfold pySortBy
  split
  · rw [List.filter_reverse, filter_insertionSort_stable _ _ _ hp,
      List.filter_reverse, List.reverse_reverse]
  · exact filter_insertionSort_stable _ _ _ hp

/-- C7: the sort performed by `transform` is stable.  For the flat path
the returned block sequence preserves, for every key value `v`, the
input's subsequence of blocks whose key is `v`; for the junk path the
sorted keyed junk list preserves, for every key value `v`, the gathered
junk list's subsequence of junks whose key is `v`.  (This is the standard
formalisation of "equal keys retain their relative input order", and it
holds for both values of `reverse`, as CPython implements
`reverse=True` by reversing before and after a stable ascending sort.) -/
theorem transform_sort_stable {K : Type} [LinearOrder K] (cfg : SortCfg K)
    (lib : Library) (v : K) :
    (cfg.junk = false → ∃ r, transform cfg lib = Except.ok r ∧
        r.returned.blocks.filter (fun b => decide (cfg.key b = v))
          = lib.blocks.filter (fun b => decide (cfg.key b = v)))
    ∧ (cfg.junk = true → ∃ keyed,
        keyedJunks cfg.key (_gather_junk lib.blocks) = Except.ok keyed ∧
        (pySortBy Prod.fst cfg.reverse keyed).filter (fun p => decide (p.1 = v))
          = keyed.filter (fun p => decide (p.1 = v))) := by
  constructor
  · intro hj
    have hs : sortedBlocksResult cfg lib.blocks
        = Except.ok (pySortBy cfg.key cfg.reverse lib.blocks) := by
      simp [sortedBlocksResult, hj]
    refine ⟨_, transform_eq cfg lib hs, ?_⟩
    exact pySortBy_stable cfg.key cfg.reverse lib.blocks v
  · intro _
    obtain ⟨keyed, hk⟩ := keyedJunks_ok cfg.key (_gather_junk lib.blocks)
      (fun j hj' => gather_junk_blocks_ne_nil lib.blocks j hj')
    exact ⟨keyed, hk, pySortBy_stable Prod.fst cfg.reverse keyed v⟩

/-- Witness for C7, exercising both paths at concrete inputs. -/
theorem transform_sort_stable_witness :
    (∃ r, transform (SortCfg.mk (fun _ => (0 : Nat)) false false true)
        (Library.mk [Block.entry "a" "k", Block.entry "b" "j"]) = Except.ok r ∧
        r.returned.blocks.filter (fun b => decide ((fun _ => (0 : Nat)) b = 0))
          = [Block.entry "a" "k", Block.entry "b" "j"].filter
              (fun b => decide ((fun _ => (0 : Nat)) b = 0)))
    ∧ ∃ keyed, keyedJunks (fun _ => (0 : Nat))
          (_gather_junk [Block.entry "a" "k"]) = Except.ok keyed ∧
        (pySortBy Prod.fst false keyed).filter (fun p => decide (p.1 = 0))
          = keyed.filter (fun p => decide (p.1 = 0)) := by
  constructor
  · exact (transform_sort_stable
      (SortCfg.mk (fun _ => (0 : Nat)) false false true)
      (Library.mk [Block.entry "a" "k", Block.entry "b" "j"]) 0).1 rfl
  · exact (transform_sort_stable
      (SortCfg.mk (fun _ => (0 : Nat)) false true true)
      (Library.mk [Block.entry "a" "k"]) 0).2 rfl

/-- C5: with `allow_inplace_modification = False` the caller's library is
left untouched and a newly constructed library carrying the sorted
sequence is returned; with `True` the returned object is the input
library itself, whose sequence now carries the sorted order. -/
theorem transform_inplace_vs_copy {K : Type} [LinearOrder K] (cfg : SortCfg K)
    (lib : Library) :
    ∃ r, transform cfg lib = Except.ok r
      ∧ sortedBlocksResult cfg lib.blocks = Except.ok r.returned.blocks
      ∧ (cfg.allow_inplace_modification = false →
          r.inputAfter = lib ∧ r.returnedIsInput = false)
      ∧ (cfg.allow_inplace_modification = true →
          r.returnedIsInput = true ∧ r.inputAfter = r.returned) := by
  obtain ⟨s, hs⟩ := sortedBlocksResult_ok cfg lib.blocks
  refine ⟨_, transform_eq cfg lib hs, by simpa using hs, ?_, ?_⟩
  · intro h
    simp [h]
  · intro h
    simp [h]

/-- Witness for C5 at concrete configurations (one copying, one in
place). -/
theorem transform_inplace_vs_copy_witness :
    (∃ r, transform (SortCfg.mk (fun _ => (0 : Nat)) false true false)
        (Library.mk [Block.entry "a" "k"]) = Except.ok r ∧
        r.inputAfter = Library.mk [Block.entry "a" "k"] ∧
        r.returnedIsInput = false)
    ∧ (∃ r, transform (SortCfg.mk (fun _ => (0 : Nat)) false true true)
        (Library.mk [Block.entry "a" "k"]) = Except.ok r ∧
        r.returnedIsInput = true ∧ r.inputAfter = r.returned) := by
  constructor
  · obtain ⟨r, h1, _, h3, _⟩ := transform_inplace_vs_copy
      (SortCfg.mk (fun _ => (0 : Nat)) false true false)
      (Library.mk [Block.entry "a" "k"])
    exact ⟨r, h1, (h3 rfl).1, (h3 rfl).2⟩
  · obtain ⟨r, h1, _, _, h4⟩ := transform_inplace_vs_copy
      (SortCfg.mk (fun _ => (0 : Nat)) false true true)
      (Library.mk [Block.entry "a" "k"])
    exact ⟨r, h1, (h4 rfl).1, (h4 rfl).2⟩

/-! ### C6: the reversed key -/

theorem revKey_le_iff {K : Type} [LinearOrder K] (x y : K) :
    _ReversedKey.mk x ≤ _ReversedKey.mk y ↔ y ≤ x :=
  Iff.rfl

theorem revKey_lt_iff {K : Type} [LinearOrder K] (x y : K) :
    _ReversedKey.mk x < _ReversedKey.mk y ↔ y < x :=
  Iff.rfl

theorem orderedInsert_congr {α : Type} (r s : α → α → Prop)
    [DecidableRel r] [DecidableRel s] (h : ∀ a b, r a b ↔ s a b) :
    ∀ (a : α) (l : List α), List.orderedInsert r a l = List.orderedInsert s a l
  | _, [] => rfl
  | a, b :: l => by
    simp only [List.orderedInsert]
    by_cases hr : r a b
    · rw [if_pos hr, if_pos ((h a b).mp hr)]
    · rw [if_neg hr, if_neg (fun hs => hr ((h a b).mpr hs)),
        orderedInsert_congr r s h a l]

theorem insertionSort_congr {α : Type} (r s : α → α → Prop)
    [DecidableRel r] [DecidableRel s] (h : ∀ a b, r a b ↔ s a b) :
    ∀ l : List α, List.insertionSort r l = List.insertionSort s l
  | [] => rfl
  | a :: l => by
    simp only [List.insertionSort]
    rw [insertionSort_congr r s h l, orderedInsert_congr r s h a _]

theorem eq_of_perm_sorted_antisymmOn {α : Type} (r : α → α → Prop) :
    ∀ (s t : List α), List.Perm s t → List.Sorted r s → List.Sorted r t →
      (∀ a ∈ s, ∀ b ∈ s, r a b → r b a → a = b) → s = t := by
  intro s
  induction s with
  | nil =>
    intro t hp _ _ _
    exact hp.nil_eq
  | cons a s ih =>
    intro t hp hs ht hanti
    cases t with
    | nil => exact absurd hp.eq_nil (by simp)
    | cons b t =>
      have hab : a = b := by
        by_cases heq : a = b
        · exact heq
        · have hat : a ∈ b :: t := hp.mem_iff.mp (List.mem_cons_self a s)
          have hbt : b ∈ a :: s := hp.symm.mem_iff.mp (List.mem_cons_self b t)
          have hat' : a ∈ t := by
            rcases List.mem_cons.mp hat with h | h
            · exact absurd h heq
            · exact h
          have hbs : b ∈ s := by
            rcases List.mem_cons.mp hbt with h | h
            · exact absurd h.symm heq
            · exact h
          exact hanti a (List.mem_cons_self a s) b (List.mem_cons_of_mem a hbs)
            (List.rel_of_sorted_cons hs b hbs)
            (List.rel_of_sorted_cons ht a hat')
      subst hab
      have := ih t hp.cons_inv hs.of_cons ht.of_cons
        (fun x hx y hy => hanti x (List.mem_cons_of_mem a hx)
          y (List.mem_cons_of_mem a hy))
      rw [this]

theorem sort_by_reverse_key_of_injOn {α K : Type} [LinearOrder K]
    (f : α → K) (l : List α)
    (hinj : ∀ x ∈ l, ∀ y ∈ l, f x = f y → x = y) :
    pySortBy (reverse_key f) false l = (pySortBy f false l).reverse := by
  have hcong : List.insertionSort
        (fun a b => reverse_key f a ≤ reverse_key f b) l
      = List.insertionSort (fun a b : α => f b ≤ f a) l :=
    insertionSort_congr _ _ (fun a b => revKey_le_iff (f a) (f b)) l
  simp only [pySortBy, if_neg (Bool.false_ne_true)]
  rw [hcong]
  letI : IsTotal α (fun a b : α => f b ≤ f a) := ⟨fun a b => le_total (f b) (f a)⟩
  letI : IsTrans α (fun a b : α => f b ≤ f a) :=
    ⟨fun _ _ _ h1 h2 => le_trans h2 h1⟩
  letI : IsTotal α (fun a b : α => f a ≤ f b) := ⟨fun a b => le_total (f a) (f b)⟩
  letI : IsTrans α (fun a b : α => f a ≤ f b) :=
    ⟨fun _ _ _ h1 h2 => le_trans h1 h2⟩
  refine eq_of_perm_sorted_antisymmOn (fun a b : α => f b ≤ f a) _ _ ?_ ?_ ?_ ?_
  · exact (List.perm_insertionSort _ l).trans
      ((List.reverse_perm _).trans (List.perm_insertionSort _ l)).symm
  · exact List.sorted_insertionSort _ l
  · rw [List.Sorted, List.pairwise_reverse]
    exact List.sorted_insertionSort _ l
  · intro x hx y hy h1 h2
    exact hinj x ((List.mem_insertionSort _).mp hx)
      y ((List.mem_insertionSort _).mp hy) (le_antisymm h2 h1)

/-- C6: the reversed key inverts every comparison of the base key
(`__eq__`, `__lt__`, `__le__`, `__gt__`, `__ge__` each delegate to the
opposite comparison of `base`), wrapping twice restores the original
comparisons and the original sort order, and sorting by the reversed key
yields exactly the reverse of sorting by the base key whenever the base
keys on the input are pairwise distinct. -/
theorem reverse_key_spec {α K : Type} [LinearOrder K] (f : α → K)
    (a b : α) (l : List α) :
    (reverse_key f a < reverse_key f b ↔ f b < f a)
    ∧ (reverse_key f a ≤ reverse_key f b ↔ f b ≤ f a)
    ∧ (reverse_key f a > reverse_key f b ↔ f a < f b)
    ∧ (reverse_key f a ≥ reverse_key f b ↔ f a ≤ f b)
    ∧ (reverse_key f a = reverse_key f b ↔ f a = f b)
    ∧ (reverse_key (reverse_key f) a < reverse_key (reverse_key f) b ↔ f a < f b)
    ∧ ((∀ x ∈ l, ∀ y ∈ l, f x = f y → x = y) →
        pySortBy (reverse_key f) false l = (pySortBy f false l).reverse)
    ∧ pySortBy (reverse_key (reverse_key f)) false l = pySortBy f false l := by
  refine ⟨Iff.rfl, Iff.rfl, Iff.rfl, Iff.rfl, ?_, Iff.rfl,
    sort_by_reverse_key_of_injOn f l, ?_⟩
  · unfold reverse_key
    simp [_ReversedKey.mk.injEq]
  · simp only [pySortBy, if_neg (Bool.false_ne_true)]
    exact insertionSort_congr
      (fun x y => reverse_key (reverse_key f) x ≤ reverse_key (reverse_key f) y)
      (fun x y => f x ≤ f y)
      (fun x y => (revKey_le_iff (_ReversedKey.mk (f x))
        (_ReversedKey.mk (f y))).trans (revKey_le_iff (f y) (f x))) l

/-- Witness for C6 at concrete inputs. -/
theorem reverse_key_spec_witness :
    (reverse_key (fun n : Nat => n) 1 < reverse_key (fun n : Nat => n) 2 ↔ 2 < 1)
    ∧ pySortBy (reverse_key (fun n : Nat => n)) false [2, 1, 3]
        = (pySortBy (fun n : Nat => n) false [2, 1, 3]).reverse := by
  refine ⟨(reverse_key_spec (fun n : Nat => n) 1 2 [2, 1, 3]).1, ?_⟩
  exact (reverse_key_spec (fun n : Nat => n) 1 2 [2, 1, 3]).2.2.2.2.2.2.1
    (by decide)

/-! ### C8: lexicographic composition of key generators -/

mutual

theorem pyEqB_iff_eq {K : Type} [LinearOrder K] :
    ∀ x y : PyKey K, pyEqB x y = true ↔ x = y
  | .base a, .base b => by simp [pyEqB]
  | .base _, .tup _ => by simp [pyEqB]
  | .tup _, .base _ => by simp [pyEqB]
  | .tup xs, .tup ys => by
    have h := pyEqList_iff_eq (K := K) xs ys
    simp only [pyEqB, h, PyKey.tup.injEq]

theorem pyEqList_iff_eq {K : Type} [LinearOrder K] :
    ∀ xs ys : List (PyKey K), pyEqB.pyEqList xs ys = true ↔ xs = ys
  | [], [] => by simp [pyEqB.pyEqList]
  | [], _ :: _ => by simp [pyEqB.pyEqList]
  | _ :: _, [] => by simp [pyEqB.pyEqList]
  | x :: xs, y :: ys => by
    have h1 := pyEqB_iff_eq x y
    have h2 := pyEqList_iff_eq xs ys
    simp [pyEqB.pyEqList, h1, h2]

end

mutual

theorem pyCmp_eq_iff {K : Type} [LinearOrder K] :
    ∀ x y : PyKey K, pyCmp x y = some Ordering.eq ↔ x = y
  | .base a, .base b => by simp [pyCmp, compare_eq_iff_eq]
  | .base _, .tup _ => by simp [pyCmp]
  | .tup _, .base _ => by simp [pyCmp]
  | .tup xs, .tup ys => by
    have h := tupleCmp_eq_iff (K := K) xs ys
    simp only [pyCmp, h, PyKey.tup.injEq]

theorem tupleCmp_eq_iff {K : Type} [LinearOrder K] :
    ∀ xs ys : List (PyKey K), tupleCmpList xs ys = some Ordering.eq ↔ xs = ys
  | [], [] => by simp [tupleCmpList]
  | [], _ :: _ => by simp [tupleCmpList]
  | _ :: _, [] => by simp [tupleCmpList]
  | x :: xs, y :: ys => by
    by_cases hxy : x = y
    · subst hxy
      have hEq : pyEqB x x = true := (pyEqB_iff_eq x x).mpr rfl
      have h := tupleCmp_eq_iff (K := K) xs ys
      simp [tupleCmpList, hEq, h]
    · have hne : ¬ pyEqB x y = true := fun h => hxy ((pyEqB_iff_eq x y).mp h)
      have h := pyCmp_eq_iff (K := K) x y
      simp [tupleCmpList, hne, h, hxy]

end

mutual

theorem pyCmp_gt_iff_swap {K : Type} [LinearOrder K] :
    ∀ x y : PyKey K, pyCmp x y = some Ordering.gt ↔ pyCmp y x = some Ordering.lt
  | .base a, .base b => by
    simp [pyCmp, compare_gt_iff_gt, compare_lt_iff_lt]
  | .base _, .tup _ => by simp [pyCmp]
  | .tup _, .base _ => by simp [pyCmp]
  | .tup xs, .tup ys => by
    have h := tupleCmp_gt_iff_swap (K := K) xs ys
    simp only [pyCmp, h]

theorem tupleCmp_gt_iff_swap {K : Type} [LinearOrder K] :
    ∀ xs ys : List (PyKey K),
      tupleCmpList xs ys = some Ordering.gt ↔ tupleCmpList ys xs = some Ordering.lt
  | [], [] => by simp [tupleCmpList]
  | [], _ :: _ => by simp [tupleCmpList]
  | _ :: _, [] => by simp [tupleCmpList]
  | x :: xs, y :: ys => by
    by_cases hxy : x = y
    · subst hxy
      have hEq : pyEqB x x = true := (pyEqB_iff_eq x x).mpr rfl
      have h := tupleCmp_gt_iff_swap (K := K) xs ys
      simp [tupleCmpList, hEq, h]
    · have hne : ¬ pyEqB x y = true := fun h => hxy ((pyEqB_iff_eq x y).mp h)
      have hne' : ¬ pyEqB y x = true :=
        fun h => hxy ((pyEqB_iff_eq y x).mp h).symm
      have h := pyCmp_gt_iff_swap (K := K) x y
      simp [tupleCmpList, hne, hne', h]

end

theorem tupleCmp_lt_iff_lex {K : Type} [LinearOrder K] :
    ∀ xs ys : List (PyKey K),
      tupleCmpList xs ys = some Ordering.lt
        ↔ List.Lex (fun u v : PyKey K => pyCmp u v = some Ordering.lt) xs ys
  | [], [] => by
    simp only [tupleCmpList]
    constructor
    · intro h
      simp at h
    · intro h
      cases h
  | [], y :: ys => by
    simp only [tupleCmpList]
    constructor
    · intro _
      exact List.Lex.nil
    · intro _
      trivial
  | x :: xs, [] => by
    simp only [tupleCmpList]
    constructor
    · intro h
      simp at h
    · intro h
      cases h
  | x :: xs, y :: ys => by
    by_cases hxy : x = y
    · subst hxy
      have hEq : pyEqB x x = true := (pyEqB_iff_eq x x).mpr rfl
      have h := tupleCmp_lt_iff_lex (K := K) xs ys
      simp only [tupleCmpList, hEq, if_true, h]
      constructor
      · exact List.Lex.cons
      · intro hlex
        cases hlex with
        | cons h' => exact h'
        | rel hr =>
          have hself : pyCmp x x = some Ordering.eq := (pyCmp_eq_iff x x).mpr rfl
          rw [hself] at hr
          simp at hr
    · have hne : ¬ pyEqB x y = true := fun h => hxy ((pyEqB_iff_eq x y).mp h)
      simp only [tupleCmpList, hne, if_false]
      constructor
      · exact fun h => List.Lex.rel h
      · intro hlex
        cases hlex with
        | rel hr => exact hr
        | cons h' => exact absurd rfl hxy

theorem keygenList_eq_map {α K : Type} :
    ∀ (ds : List (KeyGenDesc α K)) (x : α),
      keygenList ds x = ds.map (fun d => _keygen d x)
  | [], _ => rfl
  | d :: ds, x => by
    simp [keygenList, keygenList_eq_map ds x]

/-- C8: for a sequence description, the derived key is the tuple of the
sub-generators' keys, and two derived keys compare by the standard
lexicographic tuple order: the first differing component decides (equal
iff all components are equal; `>` is the mirror image of `<`). -/
theorem keygen_seq_lexicographic {α K : Type} [LinearOrder K]
    (ds : List (KeyGenDesc α K)) (a b : α) :
    _keygen (.seq ds) a = .tup (ds.map (fun d => _keygen d a))
    ∧ (pyCmp (_keygen (.seq ds) a) (_keygen (.seq ds) b) = some Ordering.eq
        ↔ ds.map (fun d => _keygen d a) = ds.map (fun d => _keygen d b))
    ∧ (pyCmp (_keygen (.seq ds) a) (_keygen (.seq ds) b) = some Ordering.lt
        ↔ List.Lex (fun u v : PyKey K => pyCmp u v = some Ordering.lt)
            (ds.map (fun d => _keygen d a)) (ds.map (fun d => _keygen d b)))
    ∧ (pyCmp (_keygen (.seq ds) a) (_keygen (.seq ds) b) = some Ordering.gt
        ↔ List.Lex (fun u v : PyKey K => pyCmp u v = some Ordering.lt)
            (ds.map (fun d => _keygen d b)) (ds.map (fun d => _keygen d a))) := by
  have ha : _keygen (.seq ds) a = PyKey.tup (ds.map (fun d => _keygen d a)) := by
    simp [_keygen, keygenList_eq_map]
  have hb : _keygen (.seq ds) b = PyKey.tup (ds.map (fun d => _keygen d b)) := by
    simp [_keygen, keygenList_eq_map]
  refine ⟨ha, ?_, ?_, ?_⟩
  · rw [ha, hb]
    simpa only [pyCmp] using
      (tupleCmp_eq_iff (ds.map (fun d => _keygen d a)) (ds.map (fun d => _keygen d b))).trans
        (by simp)
  · rw [ha, hb]
    simpa only [pyCmp] using
      tupleCmp_lt_iff_lex (ds.map (fun d => _keygen d a)) (ds.map (fun d => _keygen d b))
  · rw [ha, hb]
    simp only [pyCmp]
    exact (tupleCmp_gt_iff_swap _ _).trans (tupleCmp_lt_iff_lex _ _)

/-! ### C10: mixing mapped and unmapped types under one rank -/

theorem mro_head : ∀ t : PyType, ∃ rest, mro t = t :: rest := by
  intro t
  cases t <;> exact ⟨_, rfl⟩

theorem mro_index_of_head (order : List PyType) (fb : Option Nat)
    (t : PyType) (i : Nat) (hA : seqIndex order t = Except.ok i) :
    _mro_index (mro t) order fb = Except.ok i := by
  obtain ⟨rest, hr⟩ := mro_head t
  rw [hr]
  simp [_mro_index, hA]

theorem mro_get_none {V : Type} (m : List (PyType × V)) :
    ∀ l : List PyType, (∀ a ∈ l, mapGet m a = Except.error PyExc.keyError) →
      _mro_get l m none = Except.ok none := by
  intro l
  induction l with
  | nil => exact fun _ => rfl
  | cons c rest ih =>
    intro h
    have hc := h c (List.mem_cons_self c rest)
    simp only [_mro_get, hc]
    exact ih (fun a ha => h a (List.mem_cons_of_mem c ha))

/-- C10 counterexample: for a block whose type has no sub-key entry (and
whose exact type is not in the order), `type_key`'s generator raises
`ValueError` (the C2/C3 `except KeyError` slip) instead of producing the
one-element key `(fallback_rank,)`. -/
theorem type_key_unmapped_raises_counterexample :
    type_key_gen (K := Nat) (some [PyType.string_])
        [(PyType.entry, fun _ => (0 : Nat))] none (Block.implicitComment "c")
      = Except.error PyExc.valueError := rfl

/-- C10 amended: provided the rank lookup succeeds (the block's exact
type occurs in the order list), a block with no sub-key entry anywhere in
its MRO receives the one-element key `(rank,)`, a mapped block receives
`(rank, subKey)`, and under Python's tuple ordering `(j,)` is strictly
below every `(j, s)`, so unmapped blocks sort before mapped blocks of
the same rank without any error. -/
theorem type_key_unmapped_before_mapped {K : Type} [LinearOrder K]
    (order : List PyType) (sub_keys : List (PyType × (Block → K)))
    (fallback : Option Nat) (blk blk' : Block) (i i' : Nat) (kg : Block → K)
    (hA : seqIndex order (typeOf blk) = Except.ok i)
    (hB : ∀ anc ∈ mro (typeOf blk),
        mapGet sub_keys anc = Except.error PyExc.keyError)
    (hC : seqIndex order (typeOf blk') = Except.ok i')
    (hD : _mro_get (mro (typeOf blk')) sub_keys none = Except.ok (some kg)) :
    type_key_gen (some order) sub_keys fallback blk
      = Except.ok (TypeKeyVal.short i)
    ∧ type_key_gen (some order) sub_keys fallback blk'
      = Except.ok (TypeKeyVal.pair i' (kg blk'))
    ∧ ∀ (j : Nat) (s : K),
        tkLt (TypeKeyVal.short j) (TypeKeyVal.pair j s) = true
        ∧ tkLt (TypeKeyVal.pair j s) (TypeKeyVal.short j) = false := by
  refine ⟨?_, ?_, ?_⟩
  · have h1 := mro_index_of_head order fallback (typeOf blk) i hA
    have h2 := mro_get_none sub_keys (mro (typeOf blk)) hB
    simp [type_key_gen, type_key_find, h1, h2]
  · have h1 := mro_index_of_head order fallback (typeOf blk') i' hC
    simp [type_key_gen, type_key_find, h1, hD]
  · intro j s
    simp [tkLt]

/-- Witness for the amended C10 statement. -/
theorem type_key_unmapped_before_mapped_witness :
    type_key_gen (some [PyType.implicitComment, PyType.entry])
        [(PyType.entry, fun _ => (7 : Nat))] none (Block.implicitComment "c")
      = Except.ok (TypeKeyVal.short 0)
    ∧ type_key_gen (some [PyType.implicitComment, PyType.entry])
        [(PyType.entry, fun _ => (7 : Nat))] none (Block.entry "a" "k")
      = Except.ok (TypeKeyVal.pair 1 ((fun _ => (7 : Nat)) (Block.entry "a" "k")))
    ∧ tkLt (TypeKeyVal.short 1) (TypeKeyVal.pair 1 (7 : Nat)) = true := by
  obtain ⟨h1, h2, h3⟩ := type_key_unmapped_before_mapped
    [PyType.implicitComment, PyType.entry] [(PyType.entry, fun _ => (7 : Nat))]
    none (Block.implicitComment "c") (Block.entry "a" "k") 0 1
    (fun _ => (7 : Nat)) rfl
    (by intro anc hanc; fin_cases hanc <;> rfl) rfl rfl
  exact ⟨h1, h2, (h3 1 7).1⟩

end SortingBlocks
